import Mathlib

/-!
Verification development for the preference-MAC analysis scripts
(`test-data/analyze-json.py`, `test-data/find-mac-keys.py`).

The first half of this file is a shallow embedding of the code:

* an executable SHA-256 / HMAC-SHA256 implementation over byte lists
  (Python's `hashlib.sha256` / `hmac.new(..., hashlib.sha256)`), with
  machine words represented as `Nat` reduced modulo `2 ^ 32`;
* UTF-8 encoding of strings (`str.encode('utf-8')`);
* the JSON-like value model and the canonicalization, pruning, sorting,
  path-resolution and MAC routines of the two scripts.

The second half states and proves the specification claims.
-/

/-! ## 32-bit words as `Nat` -/

/-- Reduce a natural number to a 32-bit word, as Python's arithmetic on
SHA-256 words does implicitly via masking. -/
def u32 (n : Nat) : Nat := n % 4294967296

/-- 32-bit rotate right. The argument `x` is assumed below `2 ^ 32`. -/
def rotr (n x : Nat) : Nat := u32 ((x >>> n) ||| (x <<< (32 - n)))

/-- Bitwise complement on 32-bit words. -/
def u32not (x : Nat) : Nat := 4294967295 ^^^ x

/-! ## SHA-256 -/

/-- The SHA-256 round constants (fractional parts of the cube roots of the
first 64 primes). -/
def shaK : List Nat :=
  [1116352408, 1899447441, 3049323471, 3921009573, 961987163,
   1508970993, 2453635748, 2870763221, 3624381080, 310598401,
   607225278, 1426881987, 1925078388, 2162078206, 2614888103,
   3248222580, 3835390401, 4022224774, 264347078, 604807628,
   770255983, 1249150122, 1555081692, 1996064986, 2554220882,
   2821834349, 2952996808, 3210313671, 3336571891, 3584528711,
   113926993, 338241895, 666307205, 773529912, 1294757372,
   1396182291, 1695183700, 1986661051, 2177026350, 2456956037,
   2730485921, 2820302411, 3259730800, 3345764771, 3516065817,
   3600352804, 4094571909, 275423344, 430227734, 506948616,
   659060556, 883997877, 958139571, 1322822218, 1537002063,
   1747873779, 1955562222, 2024104815, 2227730452, 2361852424,
   2428436474, 2756734187, 3204031479, 3329325298]

/-- The running SHA-256 hash state: eight 32-bit words. -/
structure Hash8 where
  a : Nat
  b : Nat
  c : Nat
  d : Nat
  e : Nat
  f : Nat
  g : Nat
  h : Nat

/-- The SHA-256 initial hash value (fractional parts of the square roots of
the first 8 primes). -/
def shaH0 : Hash8 :=
  ⟨1779033703, 3144134277, 1013904242, 2773480762,
   1359893119, 2600822924, 528734635, 1541459225⟩

/-- Big-endian 8-byte encoding of a (64-bit) natural number. -/
def be64 (n : Nat) : List Nat :=
  [(n >>> 56) % 256, (n >>> 48) % 256, (n >>> 40) % 256, (n >>> 32) % 256,
   (n >>> 24) % 256, (n >>> 16) % 256, (n >>> 8) % 256, n % 256]

/-- SHA-256 message padding: append `0x80`, zero bytes up to 56 mod 64, and
the 8-byte big-endian bit length. -/
def padMsg (msg : List Nat) : List Nat :=
  msg ++ 0x80 :: List.replicate ((64 - ((msg.length + 9) % 64)) % 64) 0
      ++ be64 (msg.length * 8)

/-- Split a byte list into 64-byte chunks; the fuel argument bounds the
number of chunks (the list length suffices). -/
def chunks : Nat → List Nat → List (List Nat)
  | 0, _ => []
  | _ + 1, [] => []
  | fuel + 1, l => l.take 64 :: chunks fuel (l.drop 64)

/-- The 64-byte blocks of a padded message. -/
def toBlocks (l : List Nat) : List (List Nat) := chunks l.length l

/-- Combine bytes into big-endian 32-bit words. -/
def toWords : List Nat → List Nat
  | b0 :: b1 :: b2 :: b3 :: rest =>
      (b0 * 16777216 + b1 * 65536 + b2 * 256 + b3) :: toWords rest
  | _ => []

/-- Extend the 16 message words of a block to the 64-entry message
schedule. -/
def schedule (block : List Nat) : List Nat :=
  (List.range 48).foldl
    (fun w _ =>
      let i := w.length
      let x15 := w.getD (i - 15) 0
      let x2 := w.getD (i - 2) 0
      let s0 := (rotr 7 x15) ^^^ (rotr 18 x15) ^^^ (x15 >>> 3)
      let s1 := (rotr 17 x2) ^^^ (rotr 19 x2) ^^^ (x2 >>> 10)
      w ++ [u32 (w.getD (i - 16) 0 + s0 + w.getD (i - 7) 0 + s1)])
    (toWords block)

/-- One SHA-256 compression round. -/
def shaRound (st : Hash8) (ki wi : Nat) : Hash8 :=
  let s1 := (rotr 6 st.e) ^^^ (rotr 11 st.e) ^^^ (rotr 25 st.e)
  let ch := (st.e &&& st.f) ^^^ ((u32not st.e) &&& st.g)
  let t1 := u32 (st.h + s1 + ch + ki + wi)
  let s0 := (rotr 2 st.a) ^^^ (rotr 13 st.a) ^^^ (rotr 22 st.a)
  let mj := (st.a &&& st.b) ^^^ (st.a &&& st.c) ^^^ (st.b &&& st.c)
  let t2 := u32 (s0 + mj)
  ⟨u32 (t1 + t2), st.a, st.b, st.c, u32 (st.d + t1), st.e, st.f, st.g⟩

/-- Process one 64-byte block: 64 rounds followed by the feed-forward
addition of the incoming state. -/
def compress (st : Hash8) (block : List Nat) : Hash8 :=
  let w := schedule block
  let r := (List.range 64).foldl
    (fun s i => shaRound s (shaK.getD i 0) (w.getD i 0)) st
  ⟨u32 (st.a + r.a), u32 (st.b + r.b), u32 (st.c + r.c), u32 (st.d + r.d),
   u32 (st.e + r.e), u32 (st.f + r.f), u32 (st.g + r.g), u32 (st.h + r.h)⟩

/-- Big-endian byte decomposition of a 32-bit word. -/
def wordBytes (w : Nat) : List Nat :=
  [(w >>> 24) % 256, (w >>> 16) % 256, (w >>> 8) % 256, w % 256]

/-- The 32-byte digest corresponding to a final hash state. -/
def hashBytes (st : Hash8) : List Nat :=
  wordBytes st.a ++ wordBytes st.b ++ wordBytes st.c ++ wordBytes st.d ++
  wordBytes st.e ++ wordBytes st.f ++ wordBytes st.g ++ wordBytes st.h

/-- SHA-256 of a byte list (Python's `hashlib.sha256(...).digest()`). -/
def sha256 (msg : List Nat) : List Nat :=
  hashBytes ((toBlocks (padMsg msg)).foldl compress shaH0)

/-! ## HMAC-SHA256 -/

/-- HMAC-SHA256 over byte lists, as implemented by Python's `hmac` module
with `hashlib.sha256` (block size 64; a key longer than one block is first
hashed). -/
def hmacSha256 (key msg : List Nat) : List Nat :=
  let k0 := if 64 < key.length then sha256 key else key
  let kp := k0 ++ List.replicate (64 - k0.length) 0
  let ipad := kp.map (fun b => b ^^^ 0x36)
  let opad := kp.map (fun b => b ^^^ 0x5c)
  sha256 (opad ++ sha256 (ipad ++ msg))

/-! ## Hexadecimal rendering and UTF-8 -/

/-- The uppercase hexadecimal digit for a nibble. -/
def hexDigit (n : Nat) : Char :=
  if n < 10 then Char.ofNat (48 + n) else Char.ofNat (55 + n)

/-- Uppercase hexadecimal rendering of a byte list; models Python's
`.hexdigest().upper()`. Bytes are below 256, so the extra `% 16` on the
high nibble is inert. -/
def hexUpper (bytes : List Nat) : String :=
  String.mk ((bytes.map (fun b => [hexDigit (b / 16 % 16), hexDigit (b % 16)])).flatten)

/-- UTF-8 encoding of a single character (code point). -/
def utf8Char (c : Char) : List Nat :=
  let n := c.toNat
  if n < 128 then [n]
  else if n < 2048 then [192 ||| (n >>> 6), 128 ||| (n &&& 63)]
  else if n < 65536 then
    [224 ||| (n >>> 12), 128 ||| ((n >>> 6) &&& 63), 128 ||| (n &&& 63)]
  else
    [240 ||| (n >>> 18), 128 ||| ((n >>> 12) &&& 63),
     128 ||| ((n >>> 6) &&& 63), 128 ||| (n &&& 63)]

/-- UTF-8 encoding of a string (Python's `str.encode('utf-8')`). -/
def utf8 (s : String) : List Nat := (s.data.map utf8Char).flatten

/-- Embedding of `hmac_sha256` (analyze-json.py, lines 29-33): HMAC-SHA256
over the UTF-8 encodings of key and message, rendered as uppercase hex. -/
def hmacSha256Str (key message : String) : String :=
  hexUpper (hmacSha256 (utf8 key) (utf8 message))

/-! ## The JSON-like value model

Python values handled by the scripts: `None`, `bool`, `int`, `str`, `list`,
`dict` (insertion-ordered, unique keys). The mutual inductive keeps every
recursion structural so that all functions evaluate inside the kernel. -/

mutual

inductive Value where
  | null : Value
  | bool : Bool → Value
  | int : Int → Value
  | str : String → Value
  | list : VList → Value
  | obj : EList → Value

inductive VList where
  | nil : VList
  | cons : Value → VList → VList

inductive EList where
  | nil : EList
  | cons : String → Value → EList → EList

end

/-- The entry list of a `Value`, as a plain Lean list of pairs. -/
def toL : EList → List (String × Value)
  | .nil => []
  | .cons k v rest => (k, v) :: toL rest

/-- The element list of a `VList`, as a plain Lean list. -/
def toLV : VList → List Value
  | .nil => []
  | .cons v rest => v :: toLV rest

/-- Element at an index of a `VList` (like `List.get?`). -/
def nthL : VList → Nat → Option Value
  | .nil, _ => none
  | .cons v _, 0 => some v
  | .cons _ rest, n + 1 => nthL rest n

/-- Models Python's `dict.get(k)`: the value bound to `k`, or `None`
(`Value.null`) when the key is missing. -/
def lookupE (k : String) : EList → Value
  | .nil => .null
  | .cons k' v rest => if k = k' then v else lookupE k rest

/-- Does the entry list bind the key? -/
def hasKeyE (k : String) : EList → Bool
  | .nil => false
  | .cons k' _ rest => if k = k' then true else hasKeyE k rest

/-- Python's `len(v) == 0` test on a dict or list, used by the pruning
step: `True` exactly for the empty dict and the empty list. -/
def isEmptyContainer : Value → Bool
  | .obj .nil => true
  | .list .nil => true
  | _ => false

/-! ## Key ordering

Python's `sorted` on strings compares by code point, lexicographically. -/

/-- Lexicographic comparison of character lists by code point. -/
def charsLe : List Char → List Char → Bool
  | [], _ => true
  | _ :: _, [] => false
  | a :: as, b :: bs =>
      if a.toNat < b.toNat then true
      else if b.toNat < a.toNat then false
      else charsLe as bs

/-- String comparison by code point, matching Python's `<=` on `str`. -/
def strLe (a b : String) : Bool := charsLe a.data b.data

/-- Insert an entry into a key-sorted entry list, keeping the sort stable. -/
def insertE (k : String) (v : Value) : EList → EList
  | .nil => .cons k v .nil
  | .cons k' v' rest =>
      if strLe k k' then .cons k v (.cons k' v' rest)
      else .cons k' v' (insertE k v rest)

/-- Stable insertion sort of an entry list by key; models Python's
`sorted` over the keys (respectively the key-value pairs) of a dict, whose
keys are unique. -/
def sortE : EList → EList
  | .nil => .nil
  | .cons k v rest => insertE k v (sortE rest)

/-! ## Pruning (analyze-json.py, `prune_empty_recursive`, lines 36-58)

The source iterates the keys in sorted order, recursively prunes each
value, and skips entries whose pruned value is an empty dict or list; list
elements are recursed into but never dropped. Because the key sort is
stable, looks only at keys, and the keep/drop decision is per entry, the
sort commutes with the per-entry prune/filter pass; the embedding prunes
first and sorts afterwards so that the recursion stays structural. -/

mutual

def pruneV : Value → Value
  | .null => .null
  | .bool b => .bool b
  | .int n => .int n
  | .str s => .str s
  | .list xs => .list (pruneL xs)
  | .obj es => .obj (sortE (pruneE es))

def pruneL : VList → VList
  | .nil => .nil
  | .cons v rest => .cons (pruneV v) (pruneL rest)

def pruneE : EList → EList
  | .nil => .nil
  | .cons k v rest =>
      if isEmptyContainer (pruneV v) then pruneE rest
      else .cons k (pruneV v) (pruneE rest)

end

/-! ## Recursive sort without pruning (find-mac-keys.py,
`sort_dict_recursive`, lines 47-53)

The source sorts the `(key, recursed value)` pairs of every dict; since a
dict's keys are unique, Python's tuple comparison inside `sorted` only
ever consults the keys. -/

mutual

def sortDictV : Value → Value
  | .null => .null
  | .bool b => .bool b
  | .int n => .int n
  | .str s => .str s
  | .list xs => .list (sortDictL xs)
  | .obj es => .obj (sortE (sortDictE es))

def sortDictL : VList → VList
  | .nil => .nil
  | .cons v rest => .cons (sortDictV v) (sortDictL rest)

def sortDictE : EList → EList
  | .nil => .nil
  | .cons k v rest => .cons k (sortDictV v) (sortDictE rest)

end

/-! ## JSON serialization (Python `json.dumps` with
`separators=(',', ':')` and `ensure_ascii=False`) -/

/-- Decimal digits of a natural number; the fuel argument (any bound of at
least the number itself) keeps the recursion structural. -/
def natDigits : Nat → Nat → List Char
  | 0, _ => []
  | fuel + 1, n =>
      if n < 10 then [Char.ofNat (48 + n)]
      else natDigits fuel (n / 10) ++ [Char.ofNat (48 + n % 10)]

/-- Decimal representation of an integer, as Python's `str`/`json.dumps`
render an `int`. -/
def intRepr (n : Int) : String :=
  match n with
  | .ofNat m => String.mk (natDigits (m + 1) m)
  | .negSucc m => String.mk ('-' :: natDigits (m + 2) (m + 1))

/-- Lowercase hexadecimal digit, for `\uXXXX` escapes. -/
def hexDigitLower (n : Nat) : Char :=
  if n < 10 then Char.ofNat (48 + n) else Char.ofNat (87 + n)

/-- JSON escaping of one character, as `json.dumps(..., ensure_ascii=False)`
renders string contents: quote and backslash are escaped, control
characters use the two-character shorthands or `\u00XX`, everything else
is passed through. -/
def escChar (c : Char) : List Char :=
  if c = '"' then ['\\', '"']
  else if c = '\\' then ['\\', '\\']
  else if c = '\n' then ['\\', 'n']
  else if c = '\t' then ['\\', 't']
  else if c = '\r' then ['\\', 'r']
  else if c = '\x08' then ['\\', 'b']
  else if c = '\x0c' then ['\\', 'f']
  else if c.toNat < 32 then
    ['\\', 'u', '0', '0', hexDigitLower (c.toNat / 16), hexDigitLower (c.toNat % 16)]
  else [c]

/-- A double-quoted JSON string literal. -/
def quoteJson (s : String) : String :=
  String.mk ('"' :: (s.data.map escChar).flatten ++ ['"'])

mutual

/-- `json.dumps(v, separators=(',', ':'), ensure_ascii=False)`, emitting
dict entries in the order they are listed. -/
def dumps : Value → String
  | .null => "null"
  | .bool b => if b then "true" else "false"
  | .int n => intRepr n
  | .str s => quoteJson s
  | .list xs => "[" ++ dumpsL xs ++ "]"
  | .obj es => "\x7b" ++ dumpsE es ++ "\x7d"

def dumpsL : VList → String
  | .nil => ""
  | .cons v .nil => dumps v
  | .cons v rest => dumps v ++ "," ++ dumpsL rest

def dumpsE : EList → String
  | .nil => ""
  | .cons k v .nil => quoteJson k ++ ":" ++ dumps v
  | .cons k v rest => quoteJson k ++ ":" ++ dumps v ++ "," ++ dumpsE rest

end

/-! ## Canonicalization and MACs (analyze-json.py) -/

/-- Embedding of `value_to_json_chromium` (lines 61-91): top-level `None`
becomes the empty string, booleans their bare literals, the empty list
`[]`; containers are pruned, key-sorted and dumped compactly; strings are
JSON-quoted and integers printed in decimal. -/
def valueToJsonChromium : Value → String
  | .null => ""
  | .bool b => if b then "true" else "false"
  | .list .nil => "[]"
  | .list xs => dumps (pruneV (.list xs))
  | .obj es => dumps (pruneV (.obj es))
  | .str s => quoteJson s
  | .int n => intRepr n

/-- Embedding of `calculate_mac` (lines 108-112): serialize the value, form
`device_id + path + value_json`, and apply `hmac_sha256`. -/
def calculateMac (seed deviceId path : String) (value : Value) : String :=
  hmacSha256Str seed (deviceId ++ path ++ valueToJsonChromium value)

/-- The MAC-engine contract of the spec: a MAC from keying material, path
and an already-canonicalized string, via the same message construction and
HMAC call as `calculate_mac`. -/
def computeMac (secret deviceId path canonical : String) : String :=
  hmacSha256Str secret (deviceId ++ path ++ canonical)

/-- Split a path on `'.'`, matching Python's `str.split('.')`; in
particular the empty string yields the single segment `[""]`. -/
def splitDotsAux : List Char → List Char → List String
  | [], acc => [String.mk acc.reverse]
  | c :: cs, acc =>
      if c = '.' then String.mk acc.reverse :: splitDotsAux cs []
      else splitDotsAux cs (c :: acc)

/-- The segments of a dotted path (`path.split('.')`). -/
def splitPath (p : String) : List String := splitDotsAux p.data []

/-- The loop of `get_value_at_path` (lines 94-105): starting from the
current value, each segment steps through a dict via `dict.get` (missing
keys give `None`); a `None` or non-dict current value short-circuits the
remaining segments to `None`. -/
def walkPath : Value → List String → Value
  | cur, [] => cur
  | .obj es, p :: rest => walkPath (lookupE p es) rest
  | _, _ :: _ => .null

/-- Embedding of `get_value_at_path` (lines 94-105). -/
def getValueAtPath (v : Value) (path : String) : Value :=
  walkPath v (splitPath path)

/-- The comparison in `main` (analyze-json.py, line 148): the computed MAC
is compared to the recorded expected MAC by exact string equality. -/
def macMatches (computed expected : String) : Bool := computed == expected

/-- One record's verification, as `main` performs it: compute the MAC and
compare it string-for-string with the expected MAC. -/
def verifyRecord (seed deviceId path : String) (value : Value)
    (expected : String) : Bool :=
  macMatches (calculateMac seed deviceId path value) expected

/-- ASCII lowercasing, for stating case-insensitive hexadecimal equality. -/
def asciiLower (s : String) : String :=
  String.mk (s.data.map fun c =>
    if 65 ≤ c.toNat && c.toNat ≤ 90 then Char.ofNat (c.toNat + 32) else c)

/-- Equality of two hexadecimal strings as hexadecimal values: equality up
to letter case. -/
def sameHexValue (a b : String) : Bool := asciiLower a == asciiLower b

/-! ## The hypothesis-search MAC (find-mac-keys.py) -/

/-- Embedding of `calc_mac` (lines 56-59): recursively sort the value,
dump it compactly, and MAC `DEVICE_ID + PATH + json_str` under the file
seed. The script fixes seed, device id and path as module globals; they
are parameters here. -/
def calcMac (seed deviceId path : String) (value : Value) : String :=
  hmacSha256Str seed (deviceId ++ path ++ dumps (sortDictV value))

/-! ## Properties of the key order -/

theorem char_eq_of_toNat_eq {a b : Char} (h : a.toNat = b.toNat) : a = b :=
  Char.ofNat_toNat a ▸ Char.ofNat_toNat b ▸ congrArg Char.ofNat h

theorem charsLe_total : ∀ as bs : List Char,
    charsLe as bs = true ∨ charsLe bs as = true
  | [], _ => Or.inl rfl
  | _ :: _, [] => Or.inr rfl
  | a :: as, b :: bs => by
      rcases Nat.lt_trichotomy a.toNat b.toNat with h | h | h
      · left; simp [charsLe, h]
      · have hc : a = b := char_eq_of_toNat_eq h
        subst hc
        simp only [charsLe, Nat.lt_irrefl, if_false]
        exact charsLe_total as bs
      · right; simp [charsLe, h]

theorem charsLe_antisymm : ∀ as bs : List Char,
    charsLe as bs = true → charsLe bs as = true → as = bs
  | [], [], _, _ => rfl
  | [], _ :: _, _, h => by simp [charsLe] at h
  | _ :: _, [], h, _ => by simp [charsLe] at h
  | a :: as, b :: bs, h1, h2 => by
      simp only [charsLe] at h1 h2
      rcases Nat.lt_trichotomy a.toNat b.toNat with h | h | h
      · simp [show ¬ b.toNat < a.toNat by omega, h] at h2
      · have hc : a = b := char_eq_of_toNat_eq h
        subst hc
        simp only [Nat.lt_irrefl, if_false] at h1 h2
        rw [charsLe_antisymm as bs h1 h2]
      · simp [show ¬ a.toNat < b.toNat by omega, h] at h1

theorem charsLe_trans : ∀ as bs cs : List Char,
    charsLe as bs = true → charsLe bs cs = true → charsLe as cs = true
  | [], _, _, _, _ => rfl
  | _ :: _, [], _, h, _ => by simp [charsLe] at h
  | _ :: _, _ :: _, [], _, h => by simp [charsLe] at h
  | a :: as, b :: bs, c :: cs, h1, h2 => by
      simp only [charsLe] at h1 h2 ⊢
      rcases Nat.lt_trichotomy a.toNat b.toNat with hab | hab | hab
      · rcases Nat.lt_trichotomy b.toNat c.toNat with hbc | hbc | hbc
        · simp [show a.toNat < c.toNat by omega]
        · simp [show a.toNat < c.toNat by omega]
        · simp [show ¬ b.toNat < c.toNat by omega, hbc] at h2
      · rcases Nat.lt_trichotomy b.toNat c.toNat with hbc | hbc | hbc
        · simp [show a.toNat < c.toNat by omega]
        · simp only [show ¬ a.toNat < b.toNat by omega,
            show ¬ b.toNat < a.toNat by omega, if_false] at h1
          simp only [show ¬ b.toNat < c.toNat by omega,
            show ¬ c.toNat < b.toNat by omega, if_false] at h2
          simp only [show ¬ a.toNat < c.toNat by omega,
            show ¬ c.toNat < a.toNat by omega, if_false]
          exact charsLe_trans as bs cs h1 h2
        · simp [show ¬ b.toNat < c.toNat by omega, hbc] at h2
      · simp [show ¬ a.toNat < b.toNat by omega, hab] at h1

theorem string_eq_of_data_eq {a b : String} (h : a.data = b.data) : a = b := by
  cases a; cases b; simp_all

theorem strLe_total (a b : String) : strLe a b = true ∨ strLe b a = true :=
  charsLe_total a.data b.data

theorem strLe_antisymm {a b : String} (h1 : strLe a b = true)
    (h2 : strLe b a = true) : a = b :=
  string_eq_of_data_eq (charsLe_antisymm a.data b.data h1 h2)

theorem strLe_trans {a b c : String} (h1 : strLe a b = true)
    (h2 : strLe b c = true) : strLe a c = true :=
  charsLe_trans a.data b.data c.data h1 h2

/-! ## Properties of entry-list sorting -/

/-- The entry list is sorted by key. -/
def entriesSorted (l : EList) : Prop :=
  (toL l).Pairwise (fun p q => strLe p.1 q.1 = true)

theorem toL_inj : ∀ {l1 l2 : EList}, toL l1 = toL l2 → l1 = l2
  | .nil, .nil, _ => rfl
  | .nil, .cons _ _ _, h => by simp [toL] at h
  | .cons _ _ _, .nil, h => by simp [toL] at h
  | .cons _ _ t1, .cons _ _ t2, h => by
      simp only [toL, List.cons.injEq, Prod.mk.injEq] at h
      obtain ⟨⟨hk, hv⟩, ht⟩ := h
      rw [hk, hv, toL_inj ht]

theorem perm_insertE (k : String) (v : Value) : ∀ l : EList,
    (toL (insertE k v l)).Perm ((k, v) :: toL l)
  | .nil => List.Perm.refl _
  | .cons k' v' rest => by
      simp only [insertE]
      split
      · exact List.Perm.refl _
      · exact ((perm_insertE k v rest).cons (k', v')).trans
          (List.Perm.swap (k, v) (k', v') (toL rest))

theorem perm_sortE : ∀ l : EList, (toL (sortE l)).Perm (toL l)
  | .nil => List.Perm.refl _
  | .cons k v rest =>
      (perm_insertE k v (sortE rest)).trans ((perm_sortE rest).cons _)

theorem mem_insertE {p : String × Value} {k : String} {v : Value}
    {l : EList} : p ∈ toL (insertE k v l) ↔ p = (k, v) ∨ p ∈ toL l := by
  rw [(perm_insertE k v l).mem_iff]
  simp

theorem sorted_insertE {k : String} {v : Value} : ∀ {l : EList},
    entriesSorted l → entriesSorted (insertE k v l)
  | .nil, _ => by simp [entriesSorted, insertE, toL]
  | .cons k' v' rest, h => by
      simp only [entriesSorted, toL, List.pairwise_cons] at h
      obtain ⟨hhead, htail⟩ := h
      simp only [insertE]
      split
      · rename_i hle
        simp only [entriesSorted, toL, List.pairwise_cons]
        refine ⟨fun q hq => ?_, hhead, htail⟩
        rcases List.mem_cons.mp hq with hq | hq
        · rw [hq]; exact hle
        · exact strLe_trans hle (hhead q hq)
      · rename_i hnle
        have hle : strLe k' k = true := by
          rcases strLe_total k k' with h | h
          · exact absurd h hnle
          · exact h
        simp only [entriesSorted, toL, List.pairwise_cons]
        refine ⟨fun q hq => ?_, sorted_insertE htail⟩
        rcases mem_insertE.mp hq with hq | hq
        · rw [hq]; exact hle
        · exact hhead q hq

theorem sorted_sortE : ∀ l : EList, entriesSorted (sortE l)
  | .nil => by simp [entriesSorted, sortE, toL]
  | .cons _ _ rest => sorted_insertE (sorted_sortE rest)

theorem insertE_of_head_le {k : String} {v : Value} : ∀ {l : EList},
    (∀ q ∈ toL l, strLe k q.1 = true) → insertE k v l = .cons k v l
  | .nil, _ => rfl
  | .cons k' v' rest, h => by
      simp only [insertE]
      rw [if_pos (h (k', v') (by simp [toL]))]

theorem sortE_of_sorted : ∀ {l : EList}, entriesSorted l → sortE l = l
  | .nil, _ => rfl
  | .cons k v rest, h => by
      simp only [entriesSorted, toL, List.pairwise_cons] at h
      simp only [sortE]
      rw [sortE_of_sorted h.2, insertE_of_head_le h.1]

theorem sortE_idem (l : EList) : sortE (sortE l) = sortE l :=
  sortE_of_sorted (sorted_sortE l)

/-- Two key-sorted entry lists holding the same entries, with no duplicate
keys, are equal. -/
theorem sorted_perm_nodup_eq : ∀ (l1 l2 : EList),
    entriesSorted l1 → entriesSorted l2 → (toL l1).Perm (toL l2) →
    ((toL l1).map Prod.fst).Nodup → l1 = l2
  | .nil, .nil, _, _, _, _ => rfl
  | .nil, .cons _ _ _, _, _, hp, _ => by
      have := hp.length_eq; simp [toL] at this
  | .cons _ _ _, .nil, _, _, hp, _ => by
      have := hp.length_eq; simp [toL] at this
  | .cons k1 v1 t1, .cons k2 v2 t2, hs1, hs2, hp, hn => by
      have hn2 : ((toL (.cons k2 v2 t2)).map Prod.fst).Nodup :=
        ((hp.map Prod.fst).nodup_iff).mp hn
      have hm1 : (k1, v1) ∈ toL (.cons k2 v2 t2) :=
        hp.mem_iff.mp (by simp [toL])
      have hm2 : (k2, v2) ∈ toL (.cons k1 v1 t1) :=
        hp.mem_iff.mpr (by simp [toL])
      simp only [toL, List.mem_cons] at hm1 hm2
      simp only [entriesSorted, toL, List.pairwise_cons] at hs1 hs2
      simp only [toL, List.map_cons, List.nodup_cons] at hn hn2
      have hhead : (k1, v1) = (k2, v2) := by
        rcases hm1 with h | h
        · exact h
        · rcases hm2 with h' | h'
          · exact h'.symm
          · have hk12 : strLe k1 k2 = true := hs1.1 (k2, v2) h'
            have hk21 : strLe k2 k1 = true := hs2.1 (k1, v1) h
            have hk : k1 = k2 := strLe_antisymm hk12 hk21
            have hmem : k1 ∈ (toL t2).map Prod.fst :=
              List.mem_map.mpr ⟨(k1, v1), h, rfl⟩
            exact absurd (hk ▸ hmem) hn2.1
      obtain ⟨hk, hv⟩ := Prod.mk.injEq .. ▸ hhead
      subst hk; subst hv
      have hp' : (toL t1).Perm (toL t2) := hp.cons_inv
      rw [sorted_perm_nodup_eq t1 t2 hs1.2 hs2.2 hp' hn.2]

/-- Sorting is determined by the multiset of entries once keys are unique:
the sorted forms of two entry lists that are permutations of the same
key-value pairs coincide. -/
theorem sortE_eq_of_perm {e1 e2 : EList} (hp : (toL e1).Perm (toL e2))
    (hn : ((toL e1).map Prod.fst).Nodup) : sortE e1 = sortE e2 :=
  sorted_perm_nodup_eq _ _ (sorted_sortE e1) (sorted_sortE e2)
    ((perm_sortE e1).trans (hp.trans (perm_sortE e2).symm))
    (((perm_sortE e1).map Prod.fst).nodup_iff.mpr hn)

/-! ## Properties of pruning -/

/-- Every entry of a pruned entry list is the pruned form of an original
entry, and is not an empty container. -/
theorem mem_pruneE : ∀ {es : EList} {k : String} {w : Value},
    (k, w) ∈ toL (pruneE es) →
    ∃ v, (k, v) ∈ toL es ∧ w = pruneV v ∧ isEmptyContainer w = false
  | .nil, k, w, h => by simp [pruneE, toL] at h
  | .cons k' v' rest, k, w, h => by
      simp only [pruneE] at h
      split at h
      · obtain ⟨v, hv, hw, he⟩ := mem_pruneE h
        exact ⟨v, by simp [toL, hv], hw, he⟩
      · rename_i hne
        simp only [toL, List.mem_cons] at h
        rcases h with h | h
        · have h1 : k = k' := congrArg Prod.fst h
          have h2 : w = pruneV v' := congrArg Prod.snd h
          refine ⟨v', by simp [toL, h1], h2, ?_⟩
          rw [h2]
          exact Bool.eq_false_iff.mpr (fun hc => hne hc)
        · obtain ⟨v, hv, hw, he⟩ := mem_pruneE h
          exact ⟨v, by simp [toL, hv], hw, he⟩

/-- Pruning only removes entries: surviving keys were already present. -/
theorem keys_pruneE_sub {es : EList} {k : String}
    (h : k ∈ (toL (pruneE es)).map Prod.fst) : k ∈ (toL es).map Prod.fst := by
  obtain ⟨⟨k0, w⟩, hw, hk⟩ := List.mem_map.mp h
  cases hk
  obtain ⟨v, hv, _, _⟩ := mem_pruneE hw
  exact List.mem_map.mpr ⟨(k0, v), hv, rfl⟩

/-- An entry list each of whose values is already pruned and not an empty
container is left unchanged by the prune pass. -/
theorem pruneE_fixed : ∀ {l : EList},
    (∀ k w, (k, w) ∈ toL l → pruneV w = w ∧ isEmptyContainer w = false) →
    pruneE l = l
  | .nil, _ => rfl
  | .cons k v rest, h => by
      have hh := h k v (by simp [toL])
      simp only [pruneE]
      rw [hh.1, if_neg (by simp [hh.2])]
      rw [pruneE_fixed (fun k' w' hw' => h k' w' (by simp [toL, hw']))]

mutual

theorem pruneV_pruneV : ∀ v : Value, pruneV (pruneV v) = pruneV v
  | .null => rfl
  | .bool _ => rfl
  | .int _ => rfl
  | .str _ => rfl
  | .list xs => by
      simp only [pruneV]
      rw [pruneL_pruneL xs]
  | .obj es => by
      simp only [pruneV]
      have hfix : pruneE (sortE (pruneE es)) = sortE (pruneE es) := by
        apply pruneE_fixed
        intro k w hw
        exact pruneE_vals es k w ((perm_sortE (pruneE es)).mem_iff.mp hw)
      rw [hfix, sortE_idem]

theorem pruneL_pruneL : ∀ xs : VList, pruneL (pruneL xs) = pruneL xs
  | .nil => rfl
  | .cons v rest => by
      simp only [pruneL]
      rw [pruneV_pruneV v, pruneL_pruneL rest]

theorem pruneE_vals : ∀ (es : EList) (k : String) (w : Value),
    (k, w) ∈ toL (pruneE es) → pruneV w = w ∧ isEmptyContainer w = false
  | .nil, k, w, h => by simp [pruneE, toL] at h
  | .cons k' v' rest, k, w, h => by
      simp only [pruneE] at h
      split at h
      · exact pruneE_vals rest k w h
      · rename_i hne
        simp only [toL, List.mem_cons] at h
        rcases h with h | h
        · have h2 : w = pruneV v' := congrArg Prod.snd h
          rw [h2]
          exact ⟨pruneV_pruneV v', Bool.eq_false_iff.mpr (fun hc => hne hc)⟩
        · exact pruneE_vals rest k w h

end

/-! ## Auxiliary facts about serialization and encoding -/

theorem toL_sortDictE : ∀ es : EList,
    toL (sortDictE es) = (toL es).map (fun p => (p.1, sortDictV p.2))
  | .nil => rfl
  | .cons k v rest => by simp [sortDictE, toL, toL_sortDictE rest]

theorem utf8_append (a b : String) : utf8 (a ++ b) = utf8 a ++ utf8 b := by
  simp [utf8, String.data_append]

/-- A character of an uppercase hexadecimal rendering: a decimal digit or
one of `A`-`F`. -/
def isUpperHexChar (c : Char) : Bool :=
  (48 ≤ c.toNat && c.toNat ≤ 57) || (65 ≤ c.toNat && c.toNat ≤ 70)

theorem hexDigit_isUpperHex {n : Nat} (h : n < 16) :
    isUpperHexChar (hexDigit n) = true := by
  interval_cases n <;> decide

theorem hexlist_all_hex : ∀ bs : List Nat,
    ((bs.map (fun b => [hexDigit (b / 16 % 16), hexDigit (b % 16)])).flatten).all
      isUpperHexChar = true
  | [] => rfl
  | b :: bs => by
      simp only [List.map_cons, List.flatten_cons, List.cons_append,
        List.nil_append, List.all_cons, Bool.and_eq_true]
      exact ⟨hexDigit_isUpperHex (Nat.mod_lt _ (by decide)),
        hexDigit_isUpperHex (Nat.mod_lt _ (by decide)),
        hexlist_all_hex bs⟩

theorem hexUpper_all_hex (bs : List Nat) :
    (hexUpper bs).data.all isUpperHexChar = true :=
  hexlist_all_hex bs

theorem hmacSha256Str_length (key message : String) :
    (hmacSha256Str key message).length = 64 := rfl

/-! ## Remaining helper definitions and lemmas for the claims -/

/-- The entry list of a map value (dummy for other shapes). -/
def entriesOfObj : Value → EList
  | .obj es => es
  | _ => .nil

/-- The element list of a list value (dummy for other shapes). -/
def elemsOfList : Value → VList
  | .list xs => xs
  | _ => .nil

/-- Is the value a list or a map? -/
def isContainer : Value → Bool
  | .list _ => true
  | .obj _ => true
  | _ => false

theorem lookupE_of_hasKey_false : ∀ {es : EList} {k : String},
    hasKeyE k es = false → lookupE k es = .null
  | .nil, _, _ => rfl
  | .cons k' v rest, k, h => by
      simp only [hasKeyE] at h
      simp only [lookupE]
      split at h
      · exact absurd h (by simp)
      · rw [if_neg (by assumption), lookupE_of_hasKey_false h]

theorem nodup_key_unique {l : List (String × Value)} {k : String}
    {a b : Value} (hn : (l.map Prod.fst).Nodup) (ha : (k, a) ∈ l)
    (hb : (k, b) ∈ l) : a = b := by
  induction l with
  | nil => simp at ha
  | cons p rest ih =>
      simp only [List.map_cons, List.nodup_cons] at hn
      rcases List.mem_cons.mp ha with ha' | ha' <;>
        rcases List.mem_cons.mp hb with hb' | hb'
      · rw [← ha'] at hb'
        exact (congrArg Prod.snd hb').symm
      · exfalso
        apply hn.1
        rw [← congrArg Prod.fst ha']
        exact List.mem_map.mpr ⟨(k, b), hb', rfl⟩
      · exfalso
        apply hn.1
        rw [← congrArg Prod.fst hb']
        exact List.mem_map.mpr ⟨(k, a), ha', rfl⟩
      · exact ih hn.2 ha' hb'

theorem nthL_pruneL : ∀ (xs : VList) (i : Nat),
    nthL (pruneL xs) i = (nthL xs i).map pruneV
  | .nil, _ => rfl
  | .cons _ _, 0 => rfl
  | .cons _ rest, i + 1 => nthL_pruneL rest i

theorem pruneV_of_empty : ∀ {x : Value},
    isEmptyContainer x = true → pruneV x = x
  | .list .nil, _ => rfl
  | .obj .nil, _ => rfl
  | .null, h => by simp [isEmptyContainer] at h
  | .bool _, h => by simp [isEmptyContainer] at h
  | .int _, h => by simp [isEmptyContainer] at h
  | .str _, h => by simp [isEmptyContainer] at h
  | .list (.cons _ _), h => by simp [isEmptyContainer] at h
  | .obj (.cons _ _ _), h => by simp [isEmptyContainer] at h

/-! ## Concrete values used by the claims -/

/-- The spec scenario value `{"x": 1, "y": []}`. -/
def exampleXY : Value :=
  .obj (.cons "x" (.int 1) (.cons "y" (.list .nil) .nil))

/-- The spec scenario map `{"a":1,"b":2}`. -/
def exampleMapAB : EList := .cons "a" (.int 1) (.cons "b" (.int 2) .nil)

/-- The spec scenario map `{"b":2,"a":1}`. -/
def exampleMapBA : EList := .cons "b" (.int 2) (.cons "a" (.int 1) .nil)

/-- A map holding one entry whose value is an empty list. -/
def exampleC5 : Value := .obj (.cons "x" (.list .nil) .nil)

/-- A map holding one integer entry (pruning is a no-op on it). -/
def examplePlain : Value := .obj (.cons "x" (.int 1) .nil)

/-- A one-entry map whose value is an empty list, for the C3 witness. -/
def exampleEsY : EList := .cons "y" (.list .nil) .nil

/-- A one-element list whose element is an empty map, for the C3 witness. -/
def exampleXsE : VList := .cons (.obj .nil) .nil

/-- The spec's typed path resolution, used to state what the code fails to
distinguish: stepping through maps segment by segment, `none` (the typed
"absent" outcome) when a segment is missing or a non-map is traversed, and
`some` the resolved value otherwise. -/
def resolveTyped : Value → List String → Option Value
  | cur, [] => some cur
  | .obj es, p :: rest =>
      if hasKeyE p es then resolveTyped (lookupE p es) rest else none
  | _, _ :: _ => none

/-- A two-level tree `{"a": {"b": null}}`, for the C4 multi-segment
witness. -/
def exampleTree : Value :=
  .obj (.cons "a" (.obj (.cons "b" Value.null .nil)) .nil)

theorem walkPath_null : ∀ segs : List String,
    walkPath Value.null segs = Value.null
  | [] => rfl
  | _ :: _ => rfl

theorem walkPath_of_resolveTyped_none : ∀ (segs : List String) (cur : Value),
    resolveTyped cur segs = none → walkPath cur segs = Value.null := by
  intro segs
  induction segs with
  | nil => intro cur h; simp [resolveTyped] at h
  | cons p rest ih =>
      intro cur h
      cases cur with
      | obj es =>
          simp only [resolveTyped] at h
          simp only [walkPath]
          split at h
          · exact ih _ h
          · rename_i hk
            rw [lookupE_of_hasKey_false (Bool.eq_false_iff.mpr hk)]
            exact walkPath_null rest
      | null => exact walkPath_null (p :: rest)
      | bool b => rfl
      | int n => rfl
      | str s => rfl
      | list xs => rfl

theorem walkPath_of_resolveTyped_some : ∀ (segs : List String) (cur x : Value),
    resolveTyped cur segs = some x → walkPath cur segs = x := by
  intro segs
  induction segs with
  | nil =>
      intro cur x h
      simp only [resolveTyped, Option.some.injEq] at h
      simp only [walkPath]
      exact h
  | cons p rest ih =>
      intro cur x h
      cases cur with
      | obj es =>
          simp only [resolveTyped] at h
          split at h
          · simp only [walkPath]
            exact ih _ _ h
          · exact absurd h (by simp)
      | null => simp [resolveTyped] at h
      | bool b => simp [resolveTyped] at h
      | int n => simp [resolveTyped] at h
      | str s => simp [resolveTyped] at h
      | list xs => simp [resolveTyped] at h

/-! ## The claims -/

set_option maxRecDepth 1000000

/-- C1: for every secret, device id, path and canonical string,
`compute_mac` returns exactly the HMAC-SHA256 of the message obtained by
concatenating device id, path and canonical string, keyed by the secret,
rendered as 64 uppercase hexadecimal characters with no truncation. -/
theorem c1_compute_mac_full_hmac (secret deviceId path canonical : String) :
    computeMac secret deviceId path canonical
      = hexUpper (hmacSha256 (utf8 secret)
          (utf8 deviceId ++ utf8 path ++ utf8 canonical))
    ∧ (computeMac secret deviceId path canonical).length = 64
    ∧ (computeMac secret deviceId path canonical).data.all isUpperHexChar
        = true := by
  refine ⟨?_, hmacSha256Str_length _ _, hexUpper_all_hex _⟩
  simp [computeMac, hmacSha256Str, utf8_append]

/-- C2: for secret `"S"`, device id `"D1"`, path `"a.b"` and the value
`{"x": 1, "y": []}`, canonicalization produces exactly `{"x":1}` (the
entry under `y` is pruned), and the MAC is the HMAC-SHA256 keyed by `"S"`
over `D1a.b{"x":1}`, rendered as uppercase hex. -/
theorem c2_concrete_scenario :
    valueToJsonChromium exampleXY = "\x7b\"x\":1\x7d"
    ∧ calculateMac "S" "D1" "a.b" exampleXY
        = hmacSha256Str "S" "D1a.b\x7b\"x\":1\x7d" := by
  refine ⟨by decide, ?_⟩
  exact congrArg (hmacSha256Str "S") (by decide)

/-- C3: with pruning enabled, a map entry whose value prunes to an empty
map or list (evaluated bottom-up) is dropped from the canonical form,
while a list element that is an empty container is always retained in
place. -/
theorem c3_prune_asymmetry (es : EList) (k : String) (v : Value)
    (xs : VList) (i : Nat) (x : Value) :
    ((k, v) ∈ toL es → ((toL es).map Prod.fst).Nodup →
      isEmptyContainer (pruneV v) = true →
      k ∉ (toL (entriesOfObj (pruneV (.obj es)))).map Prod.fst)
    ∧ nthL (elemsOfList (pruneV (.list xs))) i = (nthL xs i).map pruneV
    ∧ (nthL xs i = some x → isEmptyContainer x = true →
        nthL (elemsOfList (pruneV (.list xs))) i = some x) := by
  refine ⟨?_, nthL_pruneL xs i, ?_⟩
  · intro hv hn he hmem
    simp only [pruneV, entriesOfObj] at hmem
    have hmem' : k ∈ (toL (pruneE es)).map Prod.fst :=
      (((perm_sortE (pruneE es)).map Prod.fst).mem_iff).mp hmem
    obtain ⟨⟨k0, w⟩, hw, hk⟩ := List.mem_map.mp hmem'
    cases hk
    obtain ⟨v', hv', hwv, hnonempty⟩ := mem_pruneE hw
    have : v' = v := nodup_key_unique hn hv' hv
    rw [this] at hwv
    rw [hwv] at hnonempty
    rw [he] at hnonempty
    exact Bool.true_eq_false ▸ hnonempty
  · intro hx hex
    show nthL (pruneL xs) i = some x
    rw [nthL_pruneL xs i, hx]
    show some (pruneV x) = some x
    rw [pruneV_of_empty hex]

/-- C3 witness: concrete instance with `es = {"y": []}`, `k = "y"`,
`v = []`, and a one-element list `[{}]` at index 0. -/
theorem c3_prune_asymmetry_witness :
    "y" ∉ (toL (entriesOfObj (pruneV (.obj exampleEsY)))).map Prod.fst
    ∧ nthL (elemsOfList (pruneV (.list exampleXsE))) 0
        = (nthL exampleXsE 0).map pruneV
    ∧ nthL (elemsOfList (pruneV (.list exampleXsE))) 0 = some (.obj .nil) := by
  have h := c3_prune_asymmetry exampleEsY "y" (.list .nil) exampleXsE 0
    (.obj .nil)
  exact ⟨h.1 (List.mem_cons_self _ _) (by decide) rfl, h.2.1,
    h.2.2 rfl rfl⟩

/-- C4 counterexample: resolving a path that is absent from the tree and
resolving a path bound to `Null` produce the identical outcome
`Value.null`; the code conflates the two cases rather than distinguishing
them. -/
theorem c4_conflation_counterexample :
    getValueAtPath (.obj .nil) "a" = Value.null
    ∧ getValueAtPath (.obj (.cons "a" Value.null .nil)) "a" = Value.null :=
  ⟨rfl, rfl⟩

/-- C4 amended: for every snapshot tree and dotted path, resolution
collapses the typed outcomes: a path that does not resolve (a missing,
possibly intermediate, segment, or a non-map traversed) yields `None`
(`Value.null`), exactly the outcome obtained when the path resolves to a
stored `Null`; the typed "absent" outcome is conflated with "value is
`Null`". -/
theorem c4_absent_conflated_with_null (v : Value) (path : String) :
    (resolveTyped v (splitPath path) = none →
      getValueAtPath v path = Value.null)
    ∧ (resolveTyped v (splitPath path) = some Value.null →
      getValueAtPath v path = Value.null) :=
  ⟨fun h => walkPath_of_resolveTyped_none _ _ h,
   fun h => walkPath_of_resolveTyped_some _ _ _ h⟩

/-- C4 witness: on the tree `{"a": {"b": null}}`, the multi-segment path
`a.x.y` with a missing intermediate segment is typed-absent yet resolves
to `Value.null`, and the path `a.b` stores `Null` and resolves to the
same `Value.null`. -/
theorem c4_conflation_witness :
    getValueAtPath exampleTree "a.x.y" = Value.null
    ∧ getValueAtPath exampleTree "a.b" = Value.null :=
  ⟨(c4_absent_conflated_with_null exampleTree "a.x.y").1 rfl,
   (c4_absent_conflated_with_null exampleTree "a.b").2 rfl⟩

/-- C5 counterexample: on the map `{"x": []}` the hypothesis search's
`calc_mac` (sort only, no pruning, plain `json.dumps`) and the verifier's
`calculate_mac` (prune + sort + top-level leaf rules) compute different
MACs. -/
theorem c5_search_differs_counterexample :
    calcMac "" "" "" exampleC5 ≠ calculateMac "" "" "" exampleC5 := by
  decide

/-- C5 amended: the search MAC agrees with the verifier MAC exactly on
container values for which the sort-only transform and the prune transform
coincide (no empty containers inside any map); in general — e.g. when an
empty container sits under a map key — the two engines differ, because
`calc_mac` omits the pruning step and the top-level leaf rules. -/
theorem c5_search_matches_on_pruned (seed deviceId path : String)
    (v : Value) (hc : isContainer v = true)
    (h : sortDictV v = pruneV v) :
    calcMac seed deviceId path v = calculateMac seed deviceId path v := by
  cases v with
  | list xs =>
      cases xs with
      | nil =>
          exact congrArg (fun t => hmacSha256Str seed (deviceId ++ path ++ t))
            (by decide)
      | cons y ys =>
          simp only [calcMac, calculateMac, valueToJsonChromium]
          rw [h]
  | obj es =>
      simp only [calcMac, calculateMac, valueToJsonChromium]
      rw [h]
  | null => simp [isContainer] at hc
  | bool b => simp [isContainer] at hc
  | int n => simp [isContainer] at hc
  | str s => simp [isContainer] at hc

/-- C5 witness: on `{"x": 1}` (no empty containers) the two MAC engines
agree. -/
theorem c5_search_matches_witness :
    calcMac "s" "d" "p" examplePlain = calculateMac "s" "d" "p" examplePlain :=
  c5_search_matches_on_pruned "s" "d" "p" examplePlain rfl rfl

/-- C6 counterexample: a recorded expected MAC that is the lowercase form
of the computed MAC is equal to it as a hexadecimal value, yet the code's
comparison reports no match — expected MACs are not treated
case-insensitively. -/
theorem c6_case_counterexample :
    sameHexValue (calculateMac "" "" "p" Value.null)
      (asciiLower (calculateMac "" "" "p" Value.null)) = true
    ∧ macMatches (calculateMac "" "" "p" Value.null)
        (asciiLower (calculateMac "" "" "p" Value.null)) = false := by
  decide

/-- C6 amended: verification reports a match exactly when the recorded
expected MAC equals the computed uppercase MAC byte for byte
(case-sensitively). -/
theorem c6_exact_comparison (seed deviceId path : String) (v : Value)
    (expected : String) :
    verifyRecord seed deviceId path v expected = true
      ↔ calculateMac seed deviceId path v = expected := by
  simp [verifyRecord, macMatches]

/-- C7: maps holding the same key-value pairs in different insertion
orders canonicalize identically when keys are sorted; the spec's concrete
map pair canonicalizes identically under sorting and differently when the
sort step is skipped (serialization in insertion order). -/
theorem c7_key_order (e1 e2 : EList) :
    ((toL e1).Perm (toL e2) → ((toL e1).map Prod.fst).Nodup →
      dumps (sortDictV (.obj e1)) = dumps (sortDictV (.obj e2)))
    ∧ valueToJsonChromium (.obj exampleMapAB)
        = valueToJsonChromium (.obj exampleMapBA)
    ∧ dumps (.obj exampleMapAB) ≠ dumps (.obj exampleMapBA) := by
  refine ⟨?_, by decide, by decide⟩
  intro hp hn
  simp only [sortDictV]
  suffices h : sortE (sortDictE e1) = sortE (sortDictE e2) by rw [h]
  apply sortE_eq_of_perm
  · rw [toL_sortDictE, toL_sortDictE]
    exact hp.map _
  · rw [toL_sortDictE]
    have hkeys : ((toL e1).map (fun p => (p.1, sortDictV p.2))).map Prod.fst
        = (toL e1).map Prod.fst := by
      rw [List.map_map]; rfl
    rw [hkeys]
    exact hn

/-- C7 witness: the two concrete permuted maps canonicalize identically
under the sorting serializer. -/
theorem c7_key_order_witness :
    dumps (sortDictV (.obj exampleMapAB))
      = dumps (sortDictV (.obj exampleMapBA)) :=
  (c7_key_order exampleMapAB exampleMapBA).1
    (List.Perm.swap ("b", Value.int 2) ("a", Value.int 1) [])
    (by decide)

/-- C8: a top-level `Null` canonicalizes to the empty string, booleans to
their bare literals, and a top-level empty list to exactly `[]`, never to
the empty string. -/
theorem c8_leaf_rules :
    valueToJsonChromium Value.null = ""
    ∧ valueToJsonChromium (Value.bool true) = "true"
    ∧ valueToJsonChromium (Value.bool false) = "false"
    ∧ valueToJsonChromium (Value.list VList.nil) = "[]"
    ∧ valueToJsonChromium (Value.list VList.nil) ≠ "" := by
  refine ⟨rfl, rfl, rfl, rfl, by decide⟩

/-- C9 counterexample: the empty path is not rejected — resolution treats
it as the single segment `""` (here returning the ordinary value stored
under the key `""`), and MAC calculation proceeds and returns an ordinary
64-character MAC. -/
theorem c9_empty_path_counterexample :
    getValueAtPath (.obj (.cons "" (.int 7) .nil)) "" = Value.int 7
    ∧ (calculateMac "s" "d" "" Value.null).length = 64 :=
  ⟨rfl, hmacSha256Str_length _ _⟩

/-- C9 amended: the empty path is silently coerced, not rejected: it
splits into the single empty segment, resolution on a map looks up the key
`""` (yielding `None` when absent), and MAC calculation returns an
ordinary MAC. -/
theorem c9_empty_path_coerced :
    splitPath "" = [""]
    ∧ (∀ es : EList, getValueAtPath (.obj es) "" = lookupE "" es)
    ∧ ∀ (seed deviceId : String) (v : Value),
        (calculateMac seed deviceId "" v).length = 64 := by
  refine ⟨rfl, fun es => ?_, fun _ _ _ => hmacSha256Str_length _ _⟩
  have h : splitPath "" = [""] := rfl
  simp only [getValueAtPath, h, walkPath]
  rfl

/-- C10: the recursive prune-empty-containers-and-sort-keys rewrite is
idempotent on every finite value. -/
theorem c10_prune_idempotent (v : Value) :
    pruneV (pruneV v) = pruneV v :=
  pruneV_pruneV v
